import Mathlib

/-!
# Search index builder (`indexer/search_index_builder.cpp`)

A shallow embedding of the entry encoder (`FeatureName`), the entry collector
(`FeatureNameInserter`, `FeatureInserter`), the value reduction `MaxValueCalc`, the
sort-and-dedup stage of `indexer::BuildSearchIndex` and the control flow of
`indexer::BuildSearchIndexFromDatFile`, followed by theorems about them.

Conventions.
* `uint8_t`, `uint32_t`, `uint64_t` values are natural numbers; narrowing
  conversions are written as an explicit `%`.
* `signed char` values are integers.
* A `strings::UniString` is the list of its `UniChar` (`uint32_t`) code points.
* The host byte order is an explicit parameter `bigEndian : Bool`.
* `vector<FeatureName> & m_names` is passed and returned explicitly.
-/

namespace Indexer

/-! ## Data model -/

/-- A `strings::UniString`: the sequence of its `UniChar` elements. -/
abbrev UniString := List Nat

/-- The `struct FeatureName`: `strings::UniString m_name; char m_Value[5];`. -/
structure FeatureName where
  m_name : UniString
  m_Value : List Nat
deriving DecidableEq

/-- The object invariant of `char m_Value[5]`: five elements, each one byte. -/
def FeatureName.WellFormed (e : FeatureName) : Prop :=
  e.m_Value.length = 5 ∧ ∀ b ∈ e.m_Value, b < 256

instance (e : FeatureName) : Decidable e.WellFormed := by
  unfold FeatureName.WellFormed
  exact inferInstance

/-! ## Bytes of a 32-bit word -/

/-- Byte `k` of `x`, that is `(x >> 8k) & 0xFF`. -/
def byteAt (x k : Nat) : Nat := (x / 256 ^ k) % 256

/-- Reversal of the four bytes of a `uint32_t`. -/
def ReverseByteOrder (x : Nat) : Nat :=
  byteAt x 0 * 2 ^ 24 + byteAt x 1 * 2 ^ 16 + byteAt x 2 * 2 ^ 8 + byteAt x 3

/-- Modelled from the spec: `SwapIfBigEndian` (declared in `coding/endianness.hpp`,
which is not part of the sources at hand) is the fixed-endianness transform of the
entry encoder: the identity on a little-endian host and the byte reversal of the
32-bit word on a big-endian host. -/
def SwapIfBigEndian (bigEndian : Bool) (x : Nat) : Nat :=
  if bigEndian then ReverseByteOrder x else x

/-- The effect of `memcpy(dst, &x, 4)` for a `uint32_t x`: the object representation
of `x` in host byte order. -/
def storeNative (bigEndian : Bool) (x : Nat) : List Nat :=
  if bigEndian then [byteAt x 3, byteAt x 2, byteAt x 1, byteAt x 0]
  else [byteAt x 0, byteAt x 1, byteAt x 2, byteAt x 3]

/-- The effect of `memcpy(&x, src, 4)` for a `uint32_t x`: the word whose object
representation in host byte order is `b0 b1 b2 b3`. -/
def loadNative (bigEndian : Bool) (b0 b1 b2 b3 : Nat) : Nat :=
  if bigEndian then b0 * 2 ^ 24 + b1 * 2 ^ 16 + b2 * 2 ^ 8 + b3
  else b0 + b1 * 2 ^ 8 + b2 * 2 ^ 16 + b3 * 2 ^ 24

/-- The `memcmp(p, q, n)` of two byte sequences: the sign of the first difference
among the first `n` bytes. -/
def memcmp : List Nat → List Nat → Nat → Int
  | _, _, 0 => 0
  | a :: as, b :: bs, n + 1 =>
    if a < b then -1 else if b < a then 1 else memcmp as bs n
  | _, _, _ + 1 => 0

/-- The `operator<` of two `UniString`s: `std::lexicographical_compare` of their
elements. -/
def lexicographical_compare : UniString → UniString → Bool
  | _, [] => false
  | [], _ :: _ => true
  | a :: as, b :: bs =>
    if a < b then true else if b < a then false else lexicographical_compare as bs

/-! ## `FeatureName` -/

/-- The constructor `FeatureName(name, lang, id, rank)`. -/
def FeatureName.ctor (bigEndian : Bool) (name : UniString) (lang : Int)
    (id rank : Nat) : FeatureName :=
  let idToWrite := SwapIfBigEndian bigEndian id
  { m_name := (lang % 256).toNat :: name
    m_Value := rank :: storeNative bigEndian idToWrite }

/-- The method `GetKeySize`. -/
def FeatureName.GetKeySize (e : FeatureName) : Nat := e.m_name.length

/-- The method `GetValueSize`. -/
def FeatureName.GetValueSize (_e : FeatureName) : Nat := 5

/-- The method `GetValueData`: the address of `m_Value`, that is, its bytes. -/
def FeatureName.GetValueData (e : FeatureName) : List Nat := e.m_Value

/-- The method `GetRank`: `static_cast<uint8_t>(m_Value[0])`. -/
def FeatureName.GetRank (e : FeatureName) : Nat := e.m_Value.getD 0 0 % 256

/-- The method `GetOffset`: a native load of `m_Value[1..4]`, then `SwapIfBigEndian`. -/
def FeatureName.GetOffset (bigEndian : Bool) (e : FeatureName) : Nat :=
  let offset := loadNative bigEndian (e.m_Value.getD 1 0) (e.m_Value.getD 2 0)
    (e.m_Value.getD 3 0) (e.m_Value.getD 4 0)
  SwapIfBigEndian bigEndian offset

/-- The `FeatureName::operator<`. -/
def FeatureName.operator_lt (bigEndian : Bool) (a name : FeatureName) : Bool :=
  if a.m_name ≠ name.m_name then
    lexicographical_compare a.m_name name.m_name
  else if a.GetRank ≠ name.GetRank then
    decide (a.GetRank > name.GetRank)
  else if a.GetOffset bigEndian ≠ name.GetOffset bigEndian then
    decide (a.GetOffset bigEndian < name.GetOffset bigEndian)
  else
    false

/-- The `FeatureName::operator==`. -/
def FeatureName.operator_eq (a name : FeatureName) : Bool :=
  decide (a.m_name = name.m_name) && decide (0 = memcmp a.m_Value name.m_Value 5)

/-- The `MaxValueCalc::operator()(p, size)` on the bytes at `p`: `none` when
`ASSERT_EQUAL(size, 5, ())` fails, otherwise the first byte, read as `uint8_t`. -/
def MaxValueCalc.call (p : List Nat) (size : Nat) : Option Nat :=
  if size = 5 then some (p.getD 0 0) else none

/-! ## Sort-and-dedup stage of `indexer::BuildSearchIndex` -/

/-- The call `sort(names.begin(), names.end())`: `std::sort` with `operator<`. The
standard fixes its result as a permutation in which no element is smaller than an
earlier one; here it is computed by insertion. -/
def sort (bigEndian : Bool) (names : List FeatureName) : List FeatureName :=
  List.insertionSort (fun a b => b.operator_lt bigEndian a = false) names

/-- The loop of `std::unique`: `prev` is the last element kept. -/
def uniqueAux (prev : FeatureName) : List FeatureName → List FeatureName
  | [] => []
  | x :: xs => if prev.operator_eq x then uniqueAux prev xs else x :: uniqueAux x xs

/-- The call `names.erase(unique(names.begin(), names.end()), names.end())`:
`std::unique` with `operator==` keeps the first element of every run of equal
adjacent elements, and `erase` drops the rest. -/
def unique : List FeatureName → List FeatureName
  | [] => []
  | x :: xs => x :: uniqueAux x xs

/-- The sort-and-dedup stage: the content of `names` handed to `trie::Build`. -/
def sortAndDedup (bigEndian : Bool) (names : List FeatureName) : List FeatureName :=
  unique (sort bigEndian names)

/-! ## Entry collector -/

/-- The functions of the search library that the collector calls and whose
sources are not at hand, taken as parameters. A `std::string` is the list of its
bytes. -/
structure Externals where
  /-- The function `search::NormalizeAndSimplifyString`. -/
  NormalizeAndSimplifyString : List Nat → UniString
  /-- The tokens that `SplitUniString` hands to its functor, in order, for the
  delimiters `search::Delimiters()`. -/
  SplitUniString : UniString → List UniString
  /-- The function `search::FeatureTypeToString`. -/
  FeatureTypeToString : Nat → UniString

/-- The `struct FeatureNameInserter` without its reference `m_names`, which is
passed to every method and returned by it. -/
structure FeatureNameInserter where
  m_pos : Nat
  m_rank : Nat

/-- The constructor `FeatureNameInserter(names, pos, rank)` with `uint32_t pos` and
`uint8_t rank`. -/
def FeatureNameInserter.ctor (pos rank : Nat) : FeatureNameInserter :=
  { m_pos := pos % 2 ^ 32, m_rank := rank % 256 }

/-- The method `AddToken(lang, s, rank)`. -/
def FeatureNameInserter.AddToken (bigEndian : Bool) (f : FeatureNameInserter)
    (m_names : List FeatureName) (lang : Int) (s : UniString) (rank : Nat) :
    List FeatureName :=
  m_names ++ [FeatureName.ctor bigEndian s lang f.m_pos (min rank 255 % 256)]

/-- The method `AddToken(lang, s)`, which adds the token with the rank `m_rank`. -/
def FeatureNameInserter.AddTokenOwnRank (bigEndian : Bool) (f : FeatureNameInserter)
    (m_names : List FeatureName) (lang : Int) (s : UniString) : List FeatureName :=
  f.AddToken bigEndian m_names lang s f.m_rank

/-- The `FeatureNameInserter::operator()(lang, name)`: its result and the new
content of `m_names`. -/
def FeatureNameInserter.call (bigEndian : Bool) (ext : Externals)
    (f : FeatureNameInserter) (m_names : List FeatureName) (lang : Int)
    (name : List Nat) : Bool × List FeatureName :=
  let uniName := ext.NormalizeAndSimplifyString name
  let tokens := ext.SplitUniString uniName
  let tokens := if tokens.length > 30 then tokens.take 30 else tokens
  (true, tokens.foldl (fun names t => f.AddToken bigEndian names lang t f.m_rank) m_names)

/-- Modelled from the spec: `FeatureType` (its sources are not at hand) is a feature
that exposes display names in several language variants, classification identifiers
and a rank: `names` is what `ForEachNameRef` enumerates, `types` is what
`ForEachTypeRef` hands to `GetTypesFn`, and `searchRank` is the `uint8_t` that
`feature::GetSearchRank` returns. -/
structure FeatureType where
  names : List (Int × List Nat)
  types : List Nat
  searchRank : Nat

/-- Modelled from the spec: `ForEachNameRef` calls the functor on every language
variant of the name, in order, until the functor returns `false`. -/
def ForEachNameRef (fn : List FeatureName → Int → List Nat → Bool × List FeatureName) :
    List (Int × List Nat) → List FeatureName → List FeatureName
  | [], m_names => m_names
  | (lang, name) :: rest, m_names =>
    match fn m_names lang name with
    | (true, m_names) => ForEachNameRef fn rest m_names
    | (false, m_names) => m_names

/-- The `FeatureInserter::operator()(feature, pos)` with `uint64_t pos`: the new
content of `m_names`. -/
def FeatureInserter.call (bigEndian : Bool) (ext : Externals)
    (m_names : List FeatureName) (feature : FeatureType) (pos : Nat) :
    List FeatureName :=
  let f := FeatureNameInserter.ctor (pos % 2 ^ 32) feature.searchRank
  let m_names := ForEachNameRef (f.call bigEndian ext) feature.names m_names
  feature.types.foldl
    (fun names t => f.AddTokenOwnRank bigEndian names 0 (ext.FeatureTypeToString t))
    m_names

/-- The first two statements of `indexer::BuildSearchIndex`: `ForEachOffset` calls
the `FeatureInserter` on every feature of the vector and its offset. -/
def collect (bigEndian : Bool) (ext : Externals)
    (featuresVector : List (FeatureType × Nat)) : List FeatureName :=
  featuresVector.foldl
    (fun names fp => FeatureInserter.call bigEndian ext names fp.1 fp.2) []

/-- The sequence that `indexer::BuildSearchIndex` hands to `trie::Build`. -/
def BuildSearchIndex_names (bigEndian : Bool) (ext : Externals)
    (featuresVector : List (FeatureType × Nat)) : List FeatureName :=
  sortAndDedup bigEndian (collect bigEndian ext featuresVector)

/-! ## Control flow of `indexer::BuildSearchIndexFromDatFile` -/

/-- The two exception classes that the function catches. -/
inductive Exception where
  | Reader
  | Writer
deriving DecidableEq

/-- What the function does to the files: whether the scratch file
`<datFile>.search.tmp` exists, whether the container has been opened for writing,
and whether its index section has been written to. -/
structure Files where
  tmpFileExists : Bool
  containerOpenedForWrite : Bool
  indexSectionWritten : Bool
deriving DecidableEq

/-- The outcome of each statement of the `try` block that can fail: `none` when it
completes, `some e` when it throws `e`. -/
structure Outcomes where
  /-- The statement `FilesContainerR readCont(datFile)`. -/
  openRead : Option Exception
  /-- The statement `header.Load(readCont.GetReader(HEADER_FILE_TAG))`. -/
  loadHeader : Option Exception
  /-- The statement `FeaturesVector featuresVector(readCont, header)`. -/
  featuresVector : Option Exception
  /-- The statement `FileWriter writer(tmpFile)`. -/
  createTmp : Option Exception
  /-- The statement `BuildSearchIndex(featuresVector, writer)`. -/
  buildIndex : Option Exception
  /-- The statement `FilesContainerW writeCont(datFile, FileWriter::OP_WRITE_EXISTING)`. -/
  openWrite : Option Exception
  /-- The statement `FileWriter writer = writeCont.GetWriter(SEARCH_INDEX_FILE_TAG)`. -/
  getWriter : Option Exception
  /-- The statement `rw_ops::Reverse(FileReader(tmpFile), writer)`. -/
  reverse : Option Exception

/-- A statement that completes or throws, leaving the files as they are. -/
def attempt (o : Option Exception) (fs : Files) : Except Exception Unit × Files :=
  match o with
  | none => (Except.ok (), fs)
  | some e => (Except.error e, fs)

/-- Sequencing of statements: the rest runs only when the first part completes. -/
def andThen (r : Except Exception Unit × Files)
    (rest : Files → Except Exception Unit × Files) : Except Exception Unit × Files :=
  match r with
  | (Except.ok (), fs) => rest fs
  | (Except.error e, fs) => (Except.error e, fs)

/-- The `try` block of `indexer::BuildSearchIndexFromDatFile`. -/
def tryBlock (o : Outcomes) (fs : Files) : Except Exception Unit × Files :=
  andThen (attempt o.openRead fs) fun fs =>
  andThen (attempt o.loadHeader fs) fun fs =>
  andThen (attempt o.featuresVector fs) fun fs =>
  andThen (attempt o.createTmp fs) fun fs =>
  let fs := { fs with tmpFileExists := true }
  andThen (attempt o.buildIndex fs) fun fs =>
  andThen (attempt o.openWrite fs) fun fs =>
  let fs := { fs with containerOpenedForWrite := true }
  andThen (attempt o.getWriter fs) fun fs =>
  let fs := { fs with indexSectionWritten := true }
  andThen (attempt o.reverse fs) fun fs =>
  (Except.ok (), { fs with tmpFileExists := false })

/-- The function `indexer::BuildSearchIndexFromDatFile`: its return value and the
files it leaves. The handler of `Reader::Exception` returns `false`; the handler of
`Writer::Exception` only logs, and control reaches the final `return true`. -/
def BuildSearchIndexFromDatFile (o : Outcomes) (fs : Files) : Bool × Files :=
  match tryBlock o fs with
  | (Except.ok (), fs) => (true, fs)
  | (Except.error Exception.Reader, fs) => (false, fs)
  | (Except.error Exception.Writer, fs) => (true, fs)

/-! ## The order of the entries and the inputs of the examples -/

/-- The sort key of an entry in the linear order `key, rank descending, offset`. -/
def sortKey (bigEndian : Bool) (e : FeatureName) : Lex (List Nat × Lex (ℕᵒᵈ × ℕ)) :=
  toLex (e.m_name, toLex (OrderDual.toDual e.GetRank, e.GetOffset bigEndian))

/-- The token `park`. -/
def demoPark : UniString := [112, 97, 114, 107]

/-- The entries of scenario B, the first one emitted twice: `park` in language 1 at
offset 10 with rank 50 and at offset 20 with rank 200. -/
def demoNames : List FeatureName :=
  [FeatureName.ctor false demoPark 1 10 50, FeatureName.ctor false demoPark 1 20 200,
   FeatureName.ctor false demoPark 1 10 50]

/-- Tokens of the witnesses: lower-case ASCII letters, split at spaces. -/
def demoExt : Externals :=
  { NormalizeAndSimplifyString := fun name =>
      name.map (fun c => if 65 ≤ c ∧ c ≤ 90 then c + 32 else c)
    SplitUniString := fun s => (s.splitOn 32).filter (fun t => !t.isEmpty)
    FeatureTypeToString := fun t => if t = 7 then [112, 97, 114, 107] else [t] }

/-- The token `central`. -/
def demoCentral : UniString := [99, 101, 110, 116, 114, 97, 108]

/-- The feature of scenario A: name `Central Park` in language 1, one type whose
label is `park`, rank 200. -/
def demoFeature : FeatureType :=
  { names := [(1, [67, 101, 110, 116, 114, 97, 108, 32, 80, 97, 114, 107])]
    types := [7]
    searchRank := 200 }

/-- A name of 45 one-letter words. -/
def demoLongName : List Nat := (List.replicate 45 [97, 32]).flatten

/-- The entries that `FeatureInserter::operator()` emits for a feature at `pos`. -/
def emitted (bigEndian : Bool) (ext : Externals) (feature : FeatureType) (pos : Nat) :
    List FeatureName :=
  feature.names.flatMap (fun ln =>
    ((ext.SplitUniString (ext.NormalizeAndSimplifyString ln.2)).take 30).map
      (fun t => FeatureName.ctor bigEndian t ln.1 (pos % 2 ^ 32) feature.searchRank)) ++
  feature.types.map (fun t =>
    FeatureName.ctor bigEndian (ext.FeatureTypeToString t) 0 (pos % 2 ^ 32)
      feature.searchRank)

/-- No statement fails. -/
def demoAllOk : Outcomes :=
  { openRead := none, loadHeader := none, featuresVector := none, createTmp := none,
    buildIndex := none, openWrite := none, getWriter := none, reverse := none }

/-- Opening the container for writing throws `Writer::Exception`. -/
def demoWriteFailure : Outcomes :=
  { demoAllOk with openWrite := some Exception.Writer }

/-- Reading the features inside `BuildSearchIndex` throws `Reader::Exception`. -/
def demoReadFailureInBuild : Outcomes :=
  { demoAllOk with buildIndex := some Exception.Reader }

/-- No scratch file before the call, nothing written yet. -/
def demoFiles : Files :=
  { tmpFileExists := false, containerOpenedForWrite := false, indexSectionWritten := false }

/-- Opening the source container throws `Reader::Exception`. -/
def demoReadFailure : Outcomes :=
  { demoAllOk with openRead := some Exception.Reader }

/-- The entries of `demoNames` in another order and with other multiplicities. -/
def demoNamesShuffled : List FeatureName :=
  [FeatureName.ctor false demoPark 1 20 200, FeatureName.ctor false demoPark 1 10 50,
   FeatureName.ctor false demoPark 1 20 200, FeatureName.ctor false demoPark 1 20 200]

/-! ## Lemmas on keys -/

theorem lexicographical_compare_iff_lex (a b : UniString) :
    lexicographical_compare a b = true ↔ List.Lex (· < ·) a b := by
  induction a generalizing b with
  | nil =>
    cases b with
    | nil => simp [lexicographical_compare]
    | cons y ys => simp [lexicographical_compare, List.Lex.nil]
  | cons x xs ih =>
    cases b with
    | nil => simp [lexicographical_compare]
    | cons y ys =>
      unfold lexicographical_compare
      by_cases h1 : x < y
      · simp only [h1, if_true, true_iff]
        exact List.Lex.rel h1
      · by_cases h2 : y < x
        · simp only [h1, h2, if_true, if_false, Bool.false_eq_true, false_iff]
          intro h
          cases h with
          | cons h => exact (lt_irrefl _ h2)
          | rel h => exact h1 h
        · have hxy : x = y := by omega
          subst hxy
          simp only [h1, if_false, ih]
          constructor
          · intro h
            exact List.Lex.cons h
          · intro h
            cases h with
            | cons h => exact h
            | rel h => exact absurd h h1

/-! ## The order `operator<` -/

theorem operator_lt_cases (bigEndian : Bool) (a b : FeatureName) :
    a.operator_lt bigEndian b = true ↔
      List.Lex (· < ·) a.m_name b.m_name ∨
      (a.m_name = b.m_name ∧ a.GetRank > b.GetRank) ∨
      (a.m_name = b.m_name ∧ a.GetRank = b.GetRank ∧
        a.GetOffset bigEndian < b.GetOffset bigEndian) := by
  have hirr : ∀ l : UniString, ¬ List.Lex (· < ·) l l := fun l =>
    irrefl_of (List.Lex (fun x y : Nat => x < y)) l
  unfold FeatureName.operator_lt
  by_cases hk : a.m_name = b.m_name
  · have hnl : ¬ List.Lex (· < ·) a.m_name b.m_name := by
      rw [hk]; exact hirr _
    by_cases hr : a.GetRank = b.GetRank
    · by_cases ho : a.GetOffset bigEndian = b.GetOffset bigEndian
      · simp [hk, hr, ho, hirr]
      · simp [hk, hr, ho, hirr]
    · simp [hk, hr, hirr]
  · simp [hk, lexicographical_compare_iff_lex]

theorem byteAt_pack (b0 b1 b2 b3 : Nat) (h0 : b0 < 256) (h1 : b1 < 256) (h2 : b2 < 256)
    (h3 : b3 < 256) :
    byteAt (b0 + b1 * 2 ^ 8 + b2 * 2 ^ 16 + b3 * 2 ^ 24) 0 = b0 ∧
    byteAt (b0 + b1 * 2 ^ 8 + b2 * 2 ^ 16 + b3 * 2 ^ 24) 1 = b1 ∧
    byteAt (b0 + b1 * 2 ^ 8 + b2 * 2 ^ 16 + b3 * 2 ^ 24) 2 = b2 ∧
    byteAt (b0 + b1 * 2 ^ 8 + b2 * 2 ^ 16 + b3 * 2 ^ 24) 3 = b3 := by
  simp only [byteAt]
  norm_num
  omega

theorem byteAt_lt (x k : Nat) : byteAt x k < 256 := by
  unfold byteAt
  exact Nat.mod_lt _ (by norm_num)

theorem operator_lt_iff_sortKey (bigEndian : Bool) (a b : FeatureName) :
    a.operator_lt bigEndian b = true ↔ sortKey bigEndian a < sortKey bigEndian b := by
  rw [operator_lt_cases]
  unfold sortKey
  rw [Prod.Lex.lt_iff]
  simp only [Prod.Lex.lt_iff, OrderDual.toDual_lt_toDual]
  constructor
  · rintro (h | h | h)
    · exact Or.inl h
    · exact Or.inr ⟨h.1, Or.inl h.2⟩
    · exact Or.inr ⟨h.1, Or.inr ⟨by rw [h.2.1], h.2.2⟩⟩
  · rintro (h | ⟨h1, h2 | h2⟩)
    · exact Or.inl h
    · exact Or.inr (Or.inl ⟨h1, h2⟩)
    · exact Or.inr (Or.inr ⟨h1, OrderDual.toDual.injective h2.1, h2.2⟩)

theorem WellFormed_cases {e : FeatureName} (h : e.WellFormed) :
    ∃ v0 v1 v2 v3 v4, e.m_Value = [v0, v1, v2, v3, v4] ∧
      v0 < 256 ∧ v1 < 256 ∧ v2 < 256 ∧ v3 < 256 ∧ v4 < 256 := by
  obtain ⟨hl, hb⟩ := h
  match hv : e.m_Value, hl with
  | [v0, v1, v2, v3, v4], _ =>
    rw [hv] at hb
    exact ⟨v0, v1, v2, v3, v4, rfl, hb v0 (by simp), hb v1 (by simp), hb v2 (by simp),
      hb v3 (by simp), hb v4 (by simp)⟩

theorem GetOffset_of_bytes (bigEndian : Bool) (e : FeatureName) (v0 v1 v2 v3 v4 : Nat)
    (hv : e.m_Value = [v0, v1, v2, v3, v4])
    (h1 : v1 < 256) (h2 : v2 < 256) (h3 : v3 < 256) (h4 : v4 < 256) :
    e.GetOffset bigEndian = v1 + v2 * 2 ^ 8 + v3 * 2 ^ 16 + v4 * 2 ^ 24 := by
  cases bigEndian with
  | false => simp [FeatureName.GetOffset, hv, loadNative, SwapIfBigEndian]
  | true =>
    have hp := byteAt_pack v4 v3 v2 v1 h4 h3 h2 h1
    have hx : v1 * 2 ^ 24 + v2 * 2 ^ 16 + v3 * 2 ^ 8 + v4
        = v4 + v3 * 2 ^ 8 + v2 * 2 ^ 16 + v1 * 2 ^ 24 := by omega
    simp only [FeatureName.GetOffset, hv, loadNative, SwapIfBigEndian, ReverseByteOrder,
      if_true, List.getD_cons_succ, List.getD_cons_zero, hx, hp.1, hp.2.1, hp.2.2.1,
      hp.2.2.2]
    omega

theorem eq_of_sortKey_eq (bigEndian : Bool) {a b : FeatureName} (ha : a.WellFormed)
    (hb : b.WellFormed) (h : sortKey bigEndian a = sortKey bigEndian b) : a = b := by
  obtain ⟨a0, a1, a2, a3, a4, hav, ha0, ha1, ha2, ha3, ha4⟩ := WellFormed_cases ha
  obtain ⟨b0, b1, b2, b3, b4, hbv, hb0, hb1, hb2, hb3, hb4⟩ := WellFormed_cases hb
  have hoa := GetOffset_of_bytes bigEndian a a0 a1 a2 a3 a4 hav ha1 ha2 ha3 ha4
  have hob := GetOffset_of_bytes bigEndian b b0 b1 b2 b3 b4 hbv hb1 hb2 hb3 hb4
  unfold sortKey at h
  have h' := toLex.injective h
  rw [Prod.mk.injEq] at h'
  obtain ⟨hn, h2⟩ := h'
  have h2' := toLex.injective h2
  rw [Prod.mk.injEq] at h2'
  obtain ⟨hr, ho⟩ := h2'
  have hr' : a.GetRank = b.GetRank := OrderDual.toDual.injective hr
  rw [hoa, hob] at ho
  simp only [FeatureName.GetRank, hav, hbv, List.getD_cons_zero] at hr'
  have e0 : a0 = b0 := by omega
  have e1 : a1 = b1 := by omega
  have e2 : a2 = b2 := by omega
  have e3 : a3 = b3 := by omega
  have e4 : a4 = b4 := by omega
  cases a with
  | mk an av =>
    cases b with
    | mk bn bv =>
      simp only at hav hbv hn
      rw [hav, hbv, hn, e0, e1, e2, e3, e4]

theorem memcmp_self (l : List Nat) (n : Nat) : memcmp l l n = 0 := by
  induction l generalizing n with
  | nil => cases n <;> simp [memcmp]
  | cons x xs ih =>
    cases n with
    | zero => simp [memcmp]
    | succ n => simp [memcmp, ih]

theorem memcmp_cons_eq_zero (x y : Nat) (xs ys : List Nat) (n : Nat) :
    memcmp (x :: xs) (y :: ys) (n + 1) = 0 ↔ x = y ∧ memcmp xs ys n = 0 := by
  simp only [memcmp]
  by_cases h1 : x < y
  · simp only [h1, if_true]
    constructor
    · intro h; omega
    · intro h; omega
  · by_cases h2 : y < x
    · simp only [h1, h2, if_true, if_false]
      constructor
      · intro h; omega
      · intro h; omega
    · have hxy : x = y := by omega
      simp [h1, hxy]

theorem operator_eq_iff {a b : FeatureName} (ha : a.WellFormed) (hb : b.WellFormed) :
    a.operator_eq b = true ↔ a = b := by
  constructor
  · intro h
    obtain ⟨a0, a1, a2, a3, a4, hav, -⟩ := WellFormed_cases ha
    obtain ⟨b0, b1, b2, b3, b4, hbv, -⟩ := WellFormed_cases hb
    simp only [FeatureName.operator_eq, Bool.and_eq_true, decide_eq_true_eq] at h
    obtain ⟨hn, hm⟩ := h
    rw [hav, hbv] at hm
    have hm' := hm.symm
    simp only [memcmp_cons_eq_zero] at hm'
    obtain ⟨e0, e1, e2, e3, e4, -⟩ := hm'
    cases a with
    | mk an av =>
      cases b with
      | mk bn bv =>
        simp only at hav hbv hn
        rw [hav, hbv, hn, e0, e1, e2, e3, e4]
  · intro h
    subst h
    simp [FeatureName.operator_eq, memcmp_self]

theorem operator_lt_eq_false_iff (bigEndian : Bool) (a b : FeatureName) :
    b.operator_lt bigEndian a = false ↔ sortKey bigEndian a ≤ sortKey bigEndian b := by
  rw [← not_lt, ← operator_lt_iff_sortKey, Bool.not_eq_true]

theorem sort_perm (bigEndian : Bool) (names : List FeatureName) :
    (sort bigEndian names).Perm names :=
  List.perm_insertionSort _ names

theorem mem_sort (bigEndian : Bool) (names : List FeatureName) (x : FeatureName) :
    x ∈ sort bigEndian names ↔ x ∈ names :=
  (sort_perm bigEndian names).mem_iff

theorem sort_sorted (bigEndian : Bool) (names : List FeatureName) :
    (sort bigEndian names).Pairwise
      (fun a b => sortKey bigEndian a ≤ sortKey bigEndian b) := by
  haveI : IsTotal FeatureName (fun a b => b.operator_lt bigEndian a = false) :=
    ⟨fun a b => by
      simp only [operator_lt_eq_false_iff]
      exact le_total _ _⟩
  haveI : IsTrans FeatureName (fun a b => b.operator_lt bigEndian a = false) :=
    ⟨fun a b c => by
      simp only [operator_lt_eq_false_iff]
      exact le_trans⟩
  have h := List.sorted_insertionSort (fun a b => b.operator_lt bigEndian a = false) names
  exact List.Pairwise.imp (fun {a b} hab => (operator_lt_eq_false_iff bigEndian a b).1 hab) h

theorem mem_cons_uniqueAux (p : FeatureName) (l : List FeatureName)
    (hwf : ∀ e ∈ p :: l, e.WellFormed) (x : FeatureName) :
    x ∈ p :: uniqueAux p l ↔ x ∈ p :: l := by
  induction l generalizing p with
  | nil => simp [uniqueAux]
  | cons y ys ih =>
    have hp : p.WellFormed := hwf p (by simp)
    have hy : y.WellFormed := hwf y (by simp)
    unfold uniqueAux
    by_cases he : p.operator_eq y = true
    · have hpy : p = y := (operator_eq_iff hp hy).1 he
      have h1 := ih p (fun e hmem => hwf e (by
        rcases List.mem_cons.1 hmem with h | h
        · simp [h]
        · simp [h]))
      rw [if_pos he, h1]
      subst hpy
      simp
    · have h1 := ih y (fun e hmem => hwf e (List.mem_cons_of_mem _ hmem))
      rw [if_neg he, List.mem_cons, h1]
      simp

theorem mem_unique (l : List FeatureName) (hwf : ∀ e ∈ l, e.WellFormed) (x : FeatureName) :
    x ∈ unique l ↔ x ∈ l := by
  cases l with
  | nil => simp [unique]
  | cons p ps => exact mem_cons_uniqueAux p ps hwf x

theorem pairwise_cons_uniqueAux (bigEndian : Bool) (p : FeatureName) (l : List FeatureName)
    (hwf : ∀ e ∈ p :: l, e.WellFormed)
    (hs : (p :: l).Pairwise (fun a b => sortKey bigEndian a ≤ sortKey bigEndian b)) :
    (p :: uniqueAux p l).Pairwise
      (fun a b => sortKey bigEndian a < sortKey bigEndian b) := by
  induction l generalizing p with
  | nil => simp [uniqueAux]
  | cons y ys ih =>
    have hp : p.WellFormed := hwf p (by simp)
    have hy : y.WellFormed := hwf y (by simp)
    rw [List.pairwise_cons] at hs
    obtain ⟨hpl, hrest⟩ := hs
    have hrest' := hrest
    rw [List.pairwise_cons] at hrest'
    obtain ⟨hyl, hys⟩ := hrest'
    unfold uniqueAux
    by_cases he : p.operator_eq y = true
    · rw [if_pos he]
      apply ih p
      · intro e hmem
        rcases List.mem_cons.1 hmem with h | h
        · exact hwf e (by simp [h])
        · exact hwf e (by simp [h])
      · exact List.pairwise_cons.2 ⟨fun z hz => hpl z (List.mem_cons_of_mem _ hz), hys⟩
    · rw [if_neg he]
      have hwfy : ∀ e ∈ y :: ys, e.WellFormed := fun e hmem =>
        hwf e (List.mem_cons_of_mem _ hmem)
      have hne : sortKey bigEndian p ≠ sortKey bigEndian y := fun hk =>
        he ((operator_eq_iff hp hy).2 (eq_of_sortKey_eq bigEndian hp hy hk))
      have hlt : sortKey bigEndian p < sortKey bigEndian y :=
        lt_of_le_of_ne (hpl y (by simp)) hne
      refine List.pairwise_cons.2 ⟨?_, ih y hwfy hrest⟩
      intro z hz
      rw [mem_cons_uniqueAux y ys hwfy z] at hz
      rcases List.mem_cons.1 hz with h | h
      · rw [h]; exact hlt
      · exact lt_of_lt_of_le hlt (hyl z h)

theorem mem_sortAndDedup (bigEndian : Bool) (names : List FeatureName)
    (hwf : ∀ e ∈ names, e.WellFormed) (x : FeatureName) :
    x ∈ sortAndDedup bigEndian names ↔ x ∈ names := by
  unfold sortAndDedup
  rw [mem_unique _ (fun e he => hwf e ((mem_sort bigEndian names e).1 he)), mem_sort]

theorem pairwise_sortAndDedup (bigEndian : Bool) (names : List FeatureName)
    (hwf : ∀ e ∈ names, e.WellFormed) :
    (sortAndDedup bigEndian names).Pairwise
      (fun a b => sortKey bigEndian a < sortKey bigEndian b) := by
  unfold sortAndDedup
  have hs := sort_sorted bigEndian names
  have hw : ∀ e ∈ sort bigEndian names, e.WellFormed := fun e he =>
    hwf e ((mem_sort bigEndian names e).1 he)
  cases hl : sort bigEndian names with
  | nil => simp [unique]
  | cons p ps =>
    rw [hl] at hs hw
    exact pairwise_cons_uniqueAux bigEndian p ps hw hs

theorem nodup_sortAndDedup (bigEndian : Bool) (names : List FeatureName)
    (hwf : ∀ e ∈ names, e.WellFormed) : (sortAndDedup bigEndian names).Nodup :=
  List.Pairwise.imp (fun {a b} hab hEq => by
    rw [hEq] at hab
    exact lt_irrefl _ hab) (pairwise_sortAndDedup bigEndian names hwf)

theorem eq_of_map_sortKey_eq (bigEndian : Bool) (l1 l2 : List FeatureName)
    (h1 : ∀ e ∈ l1, e.WellFormed) (h2 : ∀ e ∈ l2, e.WellFormed)
    (h : l1.map (sortKey bigEndian) = l2.map (sortKey bigEndian)) : l1 = l2 := by
  induction l1 generalizing l2 with
  | nil =>
    cases l2 with
    | nil => rfl
    | cons y ys => simp at h
  | cons x xs ih =>
    cases l2 with
    | nil => simp at h
    | cons y ys =>
      simp only [List.map_cons, List.cons.injEq] at h
      have hxy : x = y :=
        eq_of_sortKey_eq bigEndian (h1 x (by simp)) (h2 y (by simp)) h.1
      have hrest : xs = ys :=
        ih ys (fun e he => h1 e (List.mem_cons_of_mem _ he))
          (fun e he => h2 e (List.mem_cons_of_mem _ he)) h.2
      rw [hxy, hrest]

/-- Whatever algorithm `std::sort` runs, its result is the one of `sort`: a
permutation of well-formed entries in which no element is smaller than an earlier
one is unique. -/
theorem sort_unique (bigEndian : Bool) (names sorted : List FeatureName)
    (hwf : ∀ e ∈ names, e.WellFormed) (hp : sorted.Perm names)
    (hs : sorted.Pairwise (fun a b => b.operator_lt bigEndian a = false)) :
    sorted = sort bigEndian names := by
  have hs' : sorted.Pairwise (fun a b => sortKey bigEndian a ≤ sortKey bigEndian b) :=
    List.Pairwise.imp (fun {a b} hab => (operator_lt_eq_false_iff bigEndian a b).1 hab) hs
  have hperm : (sorted.map (sortKey bigEndian)).Perm
      ((sort bigEndian names).map (sortKey bigEndian)) :=
    (hp.trans (sort_perm bigEndian names).symm).map _
  have hm1 : (sorted.map (sortKey bigEndian)).Sorted (· ≤ ·) :=
    List.pairwise_map.2 hs'
  have hm2 : ((sort bigEndian names).map (sortKey bigEndian)).Sorted (· ≤ ·) :=
    List.pairwise_map.2 (sort_sorted bigEndian names)
  exact eq_of_map_sortKey_eq bigEndian _ _ (fun e he => hwf e (hp.mem_iff.1 he))
    (fun e he => hwf e ((mem_sort bigEndian names e).1 he))
    (List.eq_of_perm_of_sorted hperm hm1 hm2)

theorem indexOf_lt_of_pairwise {R : FeatureName → FeatureName → Prop}
    (hasymm : ∀ a b, R a b → ¬ R b a) (a b : FeatureName) (l : List FeatureName)
    (hp : l.Pairwise R) (ha : a ∈ l) (hb : b ∈ l) (hab : R a b) :
    l.indexOf a < l.indexOf b := by
  induction l with
  | nil => simp at ha
  | cons x xs ih =>
    rw [List.pairwise_cons] at hp
    obtain ⟨hx, hxs⟩ := hp
    have hne : a ≠ b := fun h => by
      rw [h] at hab
      exact hasymm b b hab hab
    by_cases hxa : x = a
    · subst hxa
      rw [List.indexOf_cons_self, List.indexOf_cons_ne _ hne]
      exact Nat.succ_pos _
    · have ha' : a ∈ xs := by
        rcases List.mem_cons.1 ha with h | h
        · exact absurd h.symm hxa
        · exact h
      by_cases hxb : x = b
      · subst hxb
        exact absurd hab (hasymm _ _ (hx a ha'))
      · have hb' : b ∈ xs := by
          rcases List.mem_cons.1 hb with h | h
          · exact absurd h.symm hxb
          · exact h
        rw [List.indexOf_cons_ne _ hxa, List.indexOf_cons_ne _ hxb]
        exact Nat.succ_lt_succ (ih hxs ha' hb')

/-- C1: `FeatureName::operator<` holds of `a` and `b` exactly when the key of `a` is
lexicographically smaller than the key of `b`, or the keys are equal and the rank of
`a` is greater, or keys and ranks are equal and the decoded offset of `a` is smaller. -/
theorem operator_lt_iff (bigEndian : Bool) (a b : FeatureName) :
    a.operator_lt bigEndian b = true ↔
      List.Lex (· < ·) a.m_name b.m_name ∨
      (a.m_name = b.m_name ∧ a.GetRank > b.GetRank) ∨
      (a.m_name = b.m_name ∧ a.GetRank = b.GetRank ∧
        a.GetOffset bigEndian < b.GetOffset bigEndian) :=
  operator_lt_cases bigEndian a b

/-- C2: on well-formed entries the sort-and-dedup stage keeps every entry of its
input exactly once and adds none. -/
theorem sortAndDedup_distinct (bigEndian : Bool) (names : List FeatureName)
    (hwf : ∀ e ∈ names, e.WellFormed) :
    (∀ e, e ∈ names → (sortAndDedup bigEndian names).count e = 1) ∧
    (∀ e, e ∈ sortAndDedup bigEndian names → e ∈ names) := by
  refine ⟨fun e he => ?_, fun e he => (mem_sortAndDedup bigEndian names hwf e).1 he⟩
  exact List.count_eq_one_of_mem (nodup_sortAndDedup bigEndian names hwf)
    ((mem_sortAndDedup bigEndian names hwf e).2 he)

theorem sortAndDedup_distinct_witness :
    (∀ e ∈ demoNames, e.WellFormed) ∧
    ((∀ e, e ∈ demoNames → (sortAndDedup false demoNames).count e = 1) ∧
     (∀ e, e ∈ sortAndDedup false demoNames → e ∈ demoNames)) ∧
    sortAndDedup false demoNames =
      [FeatureName.ctor false demoPark 1 20 200, FeatureName.ctor false demoPark 1 10 50] :=
  ⟨by decide, sortAndDedup_distinct false demoNames (by decide), by decide⟩

/-- C3: of two entries of the input with the same key and different ranks, both
are in the output of the sort-and-dedup stage and the one of higher rank comes
first, whatever their offsets. -/
theorem sortAndDedup_rank_order (bigEndian : Bool) (names : List FeatureName)
    (hwf : ∀ e ∈ names, e.WellFormed) (a b : FeatureName) (ha : a ∈ names)
    (hb : b ∈ names) (hkey : a.m_name = b.m_name) (hrank : b.GetRank < a.GetRank) :
    a ∈ sortAndDedup bigEndian names ∧ b ∈ sortAndDedup bigEndian names ∧
    (sortAndDedup bigEndian names).indexOf a < (sortAndDedup bigEndian names).indexOf b := by
  have ha' := (mem_sortAndDedup bigEndian names hwf a).2 ha
  have hb' := (mem_sortAndDedup bigEndian names hwf b).2 hb
  refine ⟨ha', hb', ?_⟩
  apply indexOf_lt_of_pairwise (fun x y hxy => not_lt_of_lt hxy) a b _
    (pairwise_sortAndDedup bigEndian names hwf) ha' hb'
  rw [← operator_lt_iff_sortKey, operator_lt_cases]
  exact Or.inr (Or.inl ⟨hkey, hrank⟩)

theorem sortAndDedup_rank_order_witness :
    (∀ e ∈ demoNames, e.WellFormed) ∧
    FeatureName.ctor false demoPark 1 20 200 ∈ demoNames ∧
    FeatureName.ctor false demoPark 1 10 50 ∈ demoNames ∧
    (FeatureName.ctor false demoPark 1 20 200).m_name =
      (FeatureName.ctor false demoPark 1 10 50).m_name ∧
    (FeatureName.ctor false demoPark 1 10 50).GetRank <
      (FeatureName.ctor false demoPark 1 20 200).GetRank ∧
    (FeatureName.ctor false demoPark 1 20 200 ∈ sortAndDedup false demoNames ∧
     FeatureName.ctor false demoPark 1 10 50 ∈ sortAndDedup false demoNames ∧
     (sortAndDedup false demoNames).indexOf (FeatureName.ctor false demoPark 1 20 200) <
       (sortAndDedup false demoNames).indexOf (FeatureName.ctor false demoPark 1 10 50)) :=
  ⟨by decide, by decide, by decide, by decide, by decide,
    sortAndDedup_rank_order false demoNames (by decide)
      (FeatureName.ctor false demoPark 1 20 200) (FeatureName.ctor false demoPark 1 10 50)
      (by decide) (by decide) (by decide) (by decide)⟩

theorem storeNative_swap (bigEndian : Bool) (id : Nat) :
    storeNative bigEndian (SwapIfBigEndian bigEndian id) =
      [byteAt id 0, byteAt id 1, byteAt id 2, byteAt id 3] := by
  cases bigEndian with
  | false => simp [storeNative, SwapIfBigEndian]
  | true =>
    have hp := byteAt_pack (byteAt id 3) (byteAt id 2) (byteAt id 1) (byteAt id 0)
      (byteAt_lt _ _) (byteAt_lt _ _) (byteAt_lt _ _) (byteAt_lt _ _)
    have hx : byteAt id 0 * 2 ^ 24 + byteAt id 1 * 2 ^ 16 + byteAt id 2 * 2 ^ 8 + byteAt id 3
        = byteAt id 3 + byteAt id 2 * 2 ^ 8 + byteAt id 1 * 2 ^ 16 + byteAt id 0 * 2 ^ 24 := by
      omega
    simp only [storeNative, SwapIfBigEndian, ReverseByteOrder, if_true, hx, hp.1, hp.2.1,
      hp.2.2.1, hp.2.2.2]

theorem ctor_m_Value (bigEndian : Bool) (name : UniString) (lang : Int) (id rank : Nat) :
    (FeatureName.ctor bigEndian name lang id rank).m_Value =
      [rank, byteAt id 0, byteAt id 1, byteAt id 2, byteAt id 3] := by
  simp only [FeatureName.ctor, storeNative_swap]

theorem ctor_WellFormed (bigEndian : Bool) (name : UniString) (lang : Int) (id rank : Nat)
    (hrank : rank < 256) : (FeatureName.ctor bigEndian name lang id rank).WellFormed := by
  unfold FeatureName.WellFormed
  rw [ctor_m_Value]
  refine ⟨rfl, ?_⟩
  intro b hb
  simp only [List.mem_cons, List.mem_singleton, List.not_mem_nil, or_false] at hb
  rcases hb with h | h | h | h | h <;> rw [h] <;> first | exact hrank | exact byteAt_lt _ _

theorem byteAt_eq_shift_mask (x k : Nat) : byteAt x k = (x >>> (8 * k)) &&& 0xFF := by
  unfold byteAt
  rw [Nat.shiftRight_eq_div_pow, pow_mul]
  exact (Nat.and_pow_two_sub_one_eq_mod _ 8).symm

theorem GetRank_ctor (bigEndian : Bool) (name : UniString) (lang : Int) (id rank : Nat)
    (hrank : rank < 256) : (FeatureName.ctor bigEndian name lang id rank).GetRank = rank := by
  simp only [FeatureName.GetRank, ctor_m_Value, List.getD_cons_zero]
  exact Nat.mod_eq_of_lt hrank

theorem GetOffset_ctor (bigEndian : Bool) (name : UniString) (lang : Int) (id rank : Nat)
    (hid : id < 2 ^ 32) : (FeatureName.ctor bigEndian name lang id rank).GetOffset bigEndian = id := by
  rw [GetOffset_of_bytes bigEndian _ rank (byteAt id 0) (byteAt id 1) (byteAt id 2)
    (byteAt id 3) (ctor_m_Value _ _ _ _ _) (byteAt_lt _ _) (byteAt_lt _ _) (byteAt_lt _ _)
    (byteAt_lt _ _)]
  simp only [byteAt]
  norm_num at hid ⊢
  omega

/-- C4: the value built by the constructor is the rank byte followed by the four
bytes of `id`, least significant first, on either host. -/
theorem ctor_value (bigEndian : Bool) (name : UniString) (lang : Int) (id rank : Nat)
    (hrank : rank < 256) :
    (FeatureName.ctor bigEndian name lang id rank).m_Value =
      [rank, (id >>> (8 * 0)) &&& 0xFF, (id >>> (8 * 1)) &&& 0xFF,
        (id >>> (8 * 2)) &&& 0xFF, (id >>> (8 * 3)) &&& 0xFF] ∧
    (FeatureName.ctor bigEndian name lang id rank).GetValueSize = 5 ∧
    (FeatureName.ctor bigEndian name lang id rank).WellFormed ∧
    (FeatureName.ctor true name lang id rank).m_Value =
      (FeatureName.ctor false name lang id rank).m_Value := by
  refine ⟨?_, rfl, ctor_WellFormed bigEndian name lang id rank hrank, ?_⟩
  · rw [ctor_m_Value]
    simp only [byteAt_eq_shift_mask]
  · rw [ctor_m_Value, ctor_m_Value]

theorem ctor_value_witness :
    (200 : Nat) < 256 ∧
    ((FeatureName.ctor true demoPark 1 305419896 200).m_Value =
      [200, (305419896 >>> (8 * 0)) &&& 0xFF, (305419896 >>> (8 * 1)) &&& 0xFF,
        (305419896 >>> (8 * 2)) &&& 0xFF, (305419896 >>> (8 * 3)) &&& 0xFF] ∧
    (FeatureName.ctor true demoPark 1 305419896 200).GetValueSize = 5 ∧
    (FeatureName.ctor true demoPark 1 305419896 200).WellFormed ∧
    (FeatureName.ctor true demoPark 1 305419896 200).m_Value =
      (FeatureName.ctor false demoPark 1 305419896 200).m_Value) ∧
    (FeatureName.ctor true demoPark 1 305419896 200).m_Value = [200, 120, 86, 52, 18] :=
  ⟨by decide, ctor_value true demoPark 1 305419896 200 (by decide), by decide⟩

/-- C5: the key built by the constructor is the language byte followed by the token,
and entries with different language bytes are ordered by that byte alone. -/
theorem ctor_key (bigEndian : Bool) (s1 s2 : UniString) (lang1 lang2 : Int)
    (id1 id2 rank1 rank2 : Nat) (h : (lang1 % 256).toNat ≠ (lang2 % 256).toNat) :
    (FeatureName.ctor bigEndian s1 lang1 id1 rank1).GetKeySize = s1.length + 1 ∧
    (FeatureName.ctor bigEndian s1 lang1 id1 rank1).m_name = (lang1 % 256).toNat :: s1 ∧
    (lang1 % 256).toNat < 256 ∧ (((lang1 % 256).toNat : Nat) : Int) = lang1 % 256 ∧
    (FeatureName.ctor bigEndian s1 lang1 id1 rank1).operator_lt bigEndian
        (FeatureName.ctor bigEndian s2 lang2 id2 rank2) =
      decide ((lang1 % 256).toNat < (lang2 % 256).toNat) := by
  have hnn : 0 ≤ lang1 % 256 := Int.emod_nonneg _ (by norm_num)
  have hlt : lang1 % 256 < 256 := Int.emod_lt_of_pos _ (by norm_num)
  refine ⟨by simp [FeatureName.GetKeySize, FeatureName.ctor], rfl, by omega,
    Int.toNat_of_nonneg hnn, ?_⟩
  have hne : (FeatureName.ctor bigEndian s1 lang1 id1 rank1).m_name ≠
      (FeatureName.ctor bigEndian s2 lang2 id2 rank2).m_name := by
    simp only [FeatureName.ctor, ne_eq, List.cons.injEq, not_and]
    intro h1
    exact absurd h1 h
  unfold FeatureName.operator_lt
  rw [if_pos hne]
  simp only [FeatureName.ctor, lexicographical_compare]
  by_cases h1 : (lang1 % 256).toNat < (lang2 % 256).toNat
  · simp [h1]
  · have h2 : (lang2 % 256).toNat < (lang1 % 256).toNat := by omega
    simp [h1, h2]

theorem ctor_key_witness :
    ((1 : Int) % 256).toNat ≠ ((-1 : Int) % 256).toNat ∧
    ((FeatureName.ctor false [122] 1 7 0).GetKeySize = [122].length + 1 ∧
    (FeatureName.ctor false [122] 1 7 0).m_name = ((1 : Int) % 256).toNat :: [122] ∧
    ((1 : Int) % 256).toNat < 256 ∧ ((((1 : Int) % 256).toNat : Nat) : Int) = (1 : Int) % 256 ∧
    (FeatureName.ctor false [122] 1 7 0).operator_lt false
        (FeatureName.ctor false [97] (-1) 3 255) =
      decide (((1 : Int) % 256).toNat < ((-1 : Int) % 256).toNat)) ∧
    (FeatureName.ctor false [97] (-1) 3 255).m_name = [255, 97] :=
  ⟨by decide, ctor_key false [122] [97] 1 (-1) 7 3 0 255 (by decide), by decide⟩

theorem AddToken_eq (bigEndian : Bool) (f : FeatureNameInserter)
    (m_names : List FeatureName) (lang : Int) (s : UniString) (rank : Nat) :
    f.AddToken bigEndian m_names lang s rank =
      m_names ++ [FeatureName.ctor bigEndian s lang f.m_pos (min rank 255)] := by
  have hm : min rank 255 % 256 = min rank 255 := by omega
  unfold FeatureNameInserter.AddToken
  rw [hm]

/-- C6: `AddToken(lang, s, rank)` appends one entry whose rank byte is
`min(rank, 255)`. -/
theorem AddToken_rank (bigEndian : Bool) (f : FeatureNameInserter)
    (m_names : List FeatureName) (lang : Int) (s : UniString) (rank : Nat) :
    f.AddToken bigEndian m_names lang s rank =
      m_names ++ [FeatureName.ctor bigEndian s lang f.m_pos (min rank 255)] ∧
    (f.AddToken bigEndian m_names lang s rank).getLast?.map FeatureName.GetRank =
      some (min rank 255) := by
  rw [AddToken_eq, List.getLast?_concat]
  refine ⟨rfl, ?_⟩
  simp only [Option.map_some']
  rw [GetRank_ctor _ _ _ _ _ (by omega)]

theorem foldl_AddToken {α : Type} (bigEndian : Bool) (f : FeatureNameInserter) (lang : Int)
    (rank : Nat) (g : α → UniString) (xs : List α) (m_names : List FeatureName) :
    xs.foldl (fun names x => f.AddToken bigEndian names lang (g x) rank) m_names =
      m_names ++ xs.map
        (fun x => FeatureName.ctor bigEndian (g x) lang f.m_pos (min rank 255)) := by
  induction xs generalizing m_names with
  | nil => simp
  | cons t ts ih =>
    rw [List.foldl_cons, ih, AddToken_eq]
    simp

theorem call_eq (bigEndian : Bool) (ext : Externals) (f : FeatureNameInserter)
    (m_names : List FeatureName) (lang : Int) (name : List Nat) :
    f.call bigEndian ext m_names lang name =
      (true, m_names ++
        ((ext.SplitUniString (ext.NormalizeAndSimplifyString name)).take 30).map
          (fun t => FeatureName.ctor bigEndian t lang f.m_pos (min f.m_rank 255))) := by
  unfold FeatureNameInserter.call
  simp only [foldl_AddToken bigEndian f lang f.m_rank (fun t => t)]
  by_cases h : (ext.SplitUniString (ext.NormalizeAndSimplifyString name)).length > 30
  · rw [if_pos h]
  · rw [if_neg h, List.take_of_length_le (by omega)]

/-- C7: `FeatureNameInserter::operator()` appends one entry for each of the first
`min(n, 30)` tokens of the name, in their order, and keeps what `m_names` held. -/
theorem call_appends (bigEndian : Bool) (ext : Externals) (f : FeatureNameInserter)
    (m_names : List FeatureName) (lang : Int) (name : List Nat) :
    (f.call bigEndian ext m_names lang name).2 =
      m_names ++
        ((ext.SplitUniString (ext.NormalizeAndSimplifyString name)).take 30).map
          (fun t => FeatureName.ctor bigEndian t lang f.m_pos (min f.m_rank 255)) ∧
    (f.call bigEndian ext m_names lang name).2.length =
      m_names.length +
        min (ext.SplitUniString (ext.NormalizeAndSimplifyString name)).length 30 ∧
    (f.call bigEndian ext m_names lang name).1 = true := by
  rw [call_eq]
  refine ⟨rfl, ?_, rfl⟩
  simp [Nat.min_comm]

/-- The truncation example: a name of 45 tokens adds 30 entries. -/
theorem call_45_tokens :
    (demoExt.SplitUniString (demoExt.NormalizeAndSimplifyString demoLongName)).length = 45 ∧
    ((FeatureNameInserter.ctor 1024 200).call false demoExt [] 1 demoLongName).2.length
      = 30 := by
  decide

theorem ForEachNameRef_call (bigEndian : Bool) (ext : Externals) (f : FeatureNameInserter)
    (names : List (Int × List Nat)) (m_names : List FeatureName) :
    ForEachNameRef (f.call bigEndian ext) names m_names =
      m_names ++ names.flatMap (fun ln =>
        ((ext.SplitUniString (ext.NormalizeAndSimplifyString ln.2)).take 30).map
          (fun t => FeatureName.ctor bigEndian t ln.1 f.m_pos (min f.m_rank 255))) := by
  induction names generalizing m_names with
  | nil => simp [ForEachNameRef]
  | cons ln rest ih =>
    obtain ⟨lang, name⟩ := ln
    unfold ForEachNameRef
    rw [call_eq]
    simp only [ih, List.flatMap_cons, List.append_assoc]

/-- C8 (amended): `FeatureInserter::operator()` appends one entry per kept token of
every name variant, tagged with the language of the variant, and one entry per type
label, tagged with language 0; each carries the rank of the feature and the offset
`pos` reduced to 32 bits. -/
theorem FeatureInserter_call_emits (bigEndian : Bool) (ext : Externals)
    (m_names : List FeatureName) (feature : FeatureType) (pos : Nat)
    (hrank : feature.searchRank < 256) :
    FeatureInserter.call bigEndian ext m_names feature pos =
      m_names ++ emitted bigEndian ext feature pos ∧
    ∀ e ∈ emitted bigEndian ext feature pos,
      e.GetRank = feature.searchRank ∧ e.GetOffset bigEndian = pos % 2 ^ 32 := by
  have hpos : pos % 2 ^ 32 % 2 ^ 32 = pos % 2 ^ 32 := Nat.mod_mod _ _
  have hpl : pos % 2 ^ 32 < 2 ^ 32 := Nat.mod_lt _ (by norm_num)
  have hr : min (feature.searchRank % 256) 255 = feature.searchRank := by omega
  constructor
  · unfold FeatureInserter.call FeatureNameInserter.AddTokenOwnRank emitted
    simp only [ForEachNameRef_call, foldl_AddToken, FeatureNameInserter.ctor, hpos, hr,
      List.append_assoc]
  · intro e he
    unfold emitted at he
    simp only [List.mem_append, List.mem_flatMap, List.mem_map] at he
    rcases he with ⟨ln, -, t, -, rfl⟩ | ⟨t, -, rfl⟩
    · exact ⟨GetRank_ctor _ _ _ _ _ hrank, GetOffset_ctor _ _ _ _ _ hpl⟩
    · exact ⟨GetRank_ctor _ _ _ _ _ hrank, GetOffset_ctor _ _ _ _ _ hpl⟩

theorem FeatureInserter_call_emits_witness :
    demoFeature.searchRank < 256 ∧
    (FeatureInserter.call false demoExt [] demoFeature 1024 =
      [] ++ emitted false demoExt demoFeature 1024 ∧
    ∀ e ∈ emitted false demoExt demoFeature 1024,
      e.GetRank = demoFeature.searchRank ∧ e.GetOffset false = 1024 % 2 ^ 32) ∧
    FeatureInserter.call false demoExt [] demoFeature 1024 =
      [FeatureName.ctor false demoCentral 1 1024 200,
       FeatureName.ctor false demoPark 1 1024 200,
       FeatureName.ctor false demoPark 0 1024 200] ∧
    (FeatureName.ctor false demoPark 1 1024 200).m_name ≠
      (FeatureName.ctor false demoPark 0 1024 200).m_name :=
  ⟨by decide, FeatureInserter_call_emits false demoExt [] demoFeature 1024 (by decide),
    by decide, by decide⟩

/-- C8 (as stated) fails for an offset that does not fit 32 bits: at
`pos = 2 ^ 32` the emitted entries carry offset 0. -/
theorem FeatureInserter_call_offset_truncated :
    (FeatureInserter.call false demoExt [] demoFeature 4294967296).map
      (fun e => e.GetOffset false) = [0, 0, 0] ∧
    ∃ e ∈ FeatureInserter.call false demoExt [] demoFeature 4294967296,
      e.GetOffset false ≠ 4294967296 := by
  refine ⟨by decide, FeatureName.ctor false demoPark 0 0 200, by decide, by decide⟩

/-! ## `BuildSearchIndexFromDatFile` -/

theorem tryBlock_ok_deletes_tmp (o : Outcomes) (fs : Files)
    (h : (tryBlock o fs).1 = Except.ok ()) : (tryBlock o fs).2.tmpFileExists = false := by
  obtain ⟨o1, o2, o3, o4, o5, o6, o7, o8⟩ := o
  cases o1 <;> cases o2 <;> cases o3 <;> cases o4 <;> cases o5 <;> cases o6 <;>
    cases o7 <;> cases o8 <;> simp [tryBlock, attempt, andThen] at h ⊢

theorem write_error_returns_true (o : Outcomes) (fs : Files)
    (h : (tryBlock o fs).1 = Except.error Exception.Writer) :
    (BuildSearchIndexFromDatFile o fs).1 = true := by
  unfold BuildSearchIndexFromDatFile
  rcases hr : tryBlock o fs with ⟨r, fs2⟩
  rw [hr] at h
  simp only at h
  subst h
  rfl

/-- C9: when opening the container for writing throws `Writer::Exception`, the
function returns `true`, the value it returns when no statement fails. -/
theorem BuildSearchIndexFromDatFile_write_error_status :
    (tryBlock demoWriteFailure demoFiles).1 = Except.error Exception.Writer ∧
    (BuildSearchIndexFromDatFile demoWriteFailure demoFiles).1 = true ∧
    (BuildSearchIndexFromDatFile demoAllOk demoFiles).1 = true :=
  ⟨rfl, rfl, rfl⟩

/-- C10: when a statement throws after the scratch file has been created, the
scratch file is still there when the function returns. -/
theorem BuildSearchIndexFromDatFile_error_keeps_tmp :
    (BuildSearchIndexFromDatFile demoWriteFailure demoFiles).2.tmpFileExists = true ∧
    BuildSearchIndexFromDatFile demoReadFailureInBuild demoFiles =
      (false, { tmpFileExists := true, containerOpenedForWrite := false,
                indexSectionWritten := false }) ∧
    (BuildSearchIndexFromDatFile demoAllOk demoFiles).2.tmpFileExists = false := by
  decide

/-- C11: when opening the source container or loading its header throws
`Reader::Exception`, the function returns `false` and leaves the files as they
were: the container is not opened for writing and no index section is written. -/
theorem BuildSearchIndexFromDatFile_read_error (o : Outcomes) (fs : Files)
    (h : o.openRead = some Exception.Reader ∨
      (o.openRead = none ∧ o.loadHeader = some Exception.Reader)) :
    BuildSearchIndexFromDatFile o fs = (false, fs) ∧
    (BuildSearchIndexFromDatFile o fs).2.containerOpenedForWrite =
      fs.containerOpenedForWrite ∧
    (BuildSearchIndexFromDatFile o fs).2.indexSectionWritten = fs.indexSectionWritten := by
  obtain ⟨o1, o2, o3, o4, o5, o6, o7, o8⟩ := o
  have hmain : BuildSearchIndexFromDatFile ⟨o1, o2, o3, o4, o5, o6, o7, o8⟩ fs = (false, fs) := by
    rcases h with h | ⟨h1, h2⟩
    · simp only at h
      subst h
      rfl
    · simp only at h1 h2
      subst h1
      subst h2
      rfl
  rw [hmain]
  exact ⟨rfl, rfl, rfl⟩

theorem BuildSearchIndexFromDatFile_read_error_witness :
    (demoReadFailure.openRead = some Exception.Reader ∨
      (demoReadFailure.openRead = none ∧
        demoReadFailure.loadHeader = some Exception.Reader)) ∧
    (BuildSearchIndexFromDatFile demoReadFailure demoFiles = (false, demoFiles) ∧
    (BuildSearchIndexFromDatFile demoReadFailure demoFiles).2.containerOpenedForWrite =
      demoFiles.containerOpenedForWrite ∧
    (BuildSearchIndexFromDatFile demoReadFailure demoFiles).2.indexSectionWritten =
      demoFiles.indexSectionWritten) :=
  ⟨Or.inl rfl, BuildSearchIndexFromDatFile_read_error demoReadFailure demoFiles (Or.inl rfl)⟩

/-! ## Equality, the order and the value reduction -/

theorem GetOffset_ctor_any_host (writer reader : Bool) (name : UniString) (lang : Int)
    (id rank : Nat) (hid : id < 2 ^ 32) :
    (FeatureName.ctor writer name lang id rank).GetOffset reader = id := by
  rw [GetOffset_of_bytes reader _ rank (byteAt id 0) (byteAt id 1) (byteAt id 2)
    (byteAt id 3) (ctor_m_Value _ _ _ _ _) (byteAt_lt _ _) (byteAt_lt _ _) (byteAt_lt _ _)
    (byteAt_lt _ _)]
  simp only [byteAt]
  norm_num at hid ⊢
  omega

/-- C12: two entries built by the constructor are `operator==` exactly when their
tokens, language bytes, ids and ranks are equal. -/
theorem ctor_operator_eq_iff (bigEndian : Bool) (s1 s2 : UniString) (lang1 lang2 : Int)
    (id1 id2 rank1 rank2 : Nat) (hid1 : id1 < 2 ^ 32) (hid2 : id2 < 2 ^ 32)
    (hrank1 : rank1 < 256) (hrank2 : rank2 < 256) :
    (FeatureName.ctor bigEndian s1 lang1 id1 rank1).operator_eq
        (FeatureName.ctor bigEndian s2 lang2 id2 rank2) = true ↔
      s1 = s2 ∧ (lang1 % 256).toNat = (lang2 % 256).toNat ∧ id1 = id2 ∧ rank1 = rank2 := by
  rw [operator_eq_iff (ctor_WellFormed _ _ _ _ _ hrank1) (ctor_WellFormed _ _ _ _ _ hrank2)]
  constructor
  · intro h
    have ho := congrArg (FeatureName.GetOffset bigEndian) h
    have hr := congrArg FeatureName.GetRank h
    have hn := congrArg FeatureName.m_name h
    rw [GetOffset_ctor _ _ _ _ _ hid1, GetOffset_ctor _ _ _ _ _ hid2] at ho
    rw [GetRank_ctor _ _ _ _ _ hrank1, GetRank_ctor _ _ _ _ _ hrank2] at hr
    simp only [FeatureName.ctor, List.cons.injEq] at hn
    exact ⟨hn.2, hn.1, ho, hr⟩
  · rintro ⟨hs, hl, hi, hr⟩
    simp only [FeatureName.ctor, hs, hl, hi, hr]

theorem ctor_operator_eq_iff_witness :
    (10 : Nat) < 2 ^ 32 ∧ (20 : Nat) < 2 ^ 32 ∧ (50 : Nat) < 256 ∧ (200 : Nat) < 256 ∧
    ((FeatureName.ctor true demoPark 1 10 50).operator_eq
        (FeatureName.ctor true demoPark 1 20 200) = true ↔
      demoPark = demoPark ∧ ((1 : Int) % 256).toNat = ((1 : Int) % 256).toNat ∧
        (10 : Nat) = 20 ∧ (50 : Nat) = 200) ∧
    (FeatureName.ctor true demoPark 1 10 50).operator_eq
        (FeatureName.ctor true demoPark 1 20 200) = false ∧
    (FeatureName.ctor true demoPark 1 10 50).operator_eq
        (FeatureName.ctor true demoPark 1 10 50) = true :=
  ⟨by decide, by decide, by decide, by decide,
    ctor_operator_eq_iff true demoPark demoPark 1 1 10 20 50 200 (by decide) (by decide)
      (by decide) (by decide), by decide, by decide⟩

/-- C13: two entries of the input with the same key that differ in rank or in offset
are both in the output of the sort-and-dedup stage, once each, and `operator==`
does not hold of them. -/
theorem sortAndDedup_keeps_distinct (bigEndian : Bool) (names : List FeatureName)
    (hwf : ∀ e ∈ names, e.WellFormed) (a b : FeatureName) (ha : a ∈ names)
    (hb : b ∈ names) (hkey : a.m_name = b.m_name)
    (hdiff : a.GetRank ≠ b.GetRank ∨ a.GetOffset bigEndian ≠ b.GetOffset bigEndian) :
    a ∈ sortAndDedup bigEndian names ∧ b ∈ sortAndDedup bigEndian names ∧
    a ≠ b ∧ a.m_Value ≠ b.m_Value ∧ a.operator_eq b = false ∧
    (sortAndDedup bigEndian names).count a = 1 ∧
    (sortAndDedup bigEndian names).count b = 1 := by
  have ha' := (mem_sortAndDedup bigEndian names hwf a).2 ha
  have hb' := (mem_sortAndDedup bigEndian names hwf b).2 hb
  have hnd := nodup_sortAndDedup bigEndian names hwf
  have hne : a ≠ b := by
    intro h
    rw [h] at hdiff
    rcases hdiff with h1 | h1 <;> exact h1 rfl
  have hval : a.m_Value ≠ b.m_Value := by
    intro h
    apply hne
    cases a with
    | mk an av =>
      cases b with
      | mk bn bv =>
        simp only at hkey h
        rw [hkey, h]
  have heq : a.operator_eq b = false := by
    rw [← Bool.not_eq_true, operator_eq_iff (hwf a ha) (hwf b hb)]
    exact hne
  exact ⟨ha', hb', hne, hval, heq, List.count_eq_one_of_mem hnd ha',
    List.count_eq_one_of_mem hnd hb'⟩

theorem sortAndDedup_keeps_distinct_witness :
    (∀ e ∈ demoNames, e.WellFormed) ∧
    FeatureName.ctor false demoPark 1 10 50 ∈ demoNames ∧
    FeatureName.ctor false demoPark 1 20 200 ∈ demoNames ∧
    (FeatureName.ctor false demoPark 1 10 50).m_name =
      (FeatureName.ctor false demoPark 1 20 200).m_name ∧
    ((FeatureName.ctor false demoPark 1 10 50).GetRank ≠
        (FeatureName.ctor false demoPark 1 20 200).GetRank ∨
      (FeatureName.ctor false demoPark 1 10 50).GetOffset false ≠
        (FeatureName.ctor false demoPark 1 20 200).GetOffset false) ∧
    (FeatureName.ctor false demoPark 1 10 50 ∈ sortAndDedup false demoNames ∧
     FeatureName.ctor false demoPark 1 20 200 ∈ sortAndDedup false demoNames ∧
     FeatureName.ctor false demoPark 1 10 50 ≠ FeatureName.ctor false demoPark 1 20 200 ∧
     (FeatureName.ctor false demoPark 1 10 50).m_Value ≠
       (FeatureName.ctor false demoPark 1 20 200).m_Value ∧
     (FeatureName.ctor false demoPark 1 10 50).operator_eq
       (FeatureName.ctor false demoPark 1 20 200) = false ∧
     (sortAndDedup false demoNames).count (FeatureName.ctor false demoPark 1 10 50) = 1 ∧
     (sortAndDedup false demoNames).count (FeatureName.ctor false demoPark 1 20 200) = 1) :=
  ⟨by decide, by decide, by decide, by decide, by decide,
    sortAndDedup_keeps_distinct false demoNames (by decide)
      (FeatureName.ctor false demoPark 1 10 50) (FeatureName.ctor false demoPark 1 20 200)
      (by decide) (by decide) (by decide) (by decide)⟩

/-- C14: on entries `operator<` is irreflexive and transitive, and of `a < b`,
`b < a` and `a == b` exactly one holds, so that two entries are equivalent for the
order exactly when they are `operator==`. -/
theorem operator_lt_strict_total (bigEndian : Bool) (a b c : FeatureName)
    (ha : a.WellFormed) (hb : b.WellFormed) :
    a.operator_lt bigEndian a = false ∧
    (a.operator_lt bigEndian b = true → b.operator_lt bigEndian c = true →
      a.operator_lt bigEndian c = true) ∧
    ((a.operator_lt bigEndian b = true ∧ b.operator_lt bigEndian a = false ∧
        a.operator_eq b = false) ∨
      (a.operator_lt bigEndian b = false ∧ b.operator_lt bigEndian a = true ∧
        a.operator_eq b = false) ∨
      (a.operator_lt bigEndian b = false ∧ b.operator_lt bigEndian a = false ∧
        a.operator_eq b = true)) ∧
    ((a.operator_lt bigEndian b = false ∧ b.operator_lt bigEndian a = false) ↔
      a.operator_eq b = true) := by
  have hirr : a.operator_lt bigEndian a = false := by
    rw [← Bool.not_eq_true, operator_lt_iff_sortKey]
    exact lt_irrefl _
  have hneq : ∀ x y : FeatureName, x.WellFormed → y.WellFormed →
      sortKey bigEndian x ≠ sortKey bigEndian y → x.operator_eq y = false := by
    intro x y hx hy hk
    rw [← Bool.not_eq_true, operator_eq_iff hx hy]
    intro h
    exact hk (by rw [h])
  have htri : (a.operator_lt bigEndian b = true ∧ b.operator_lt bigEndian a = false ∧
        a.operator_eq b = false) ∨
      (a.operator_lt bigEndian b = false ∧ b.operator_lt bigEndian a = true ∧
        a.operator_eq b = false) ∨
      (a.operator_lt bigEndian b = false ∧ b.operator_lt bigEndian a = false ∧
        a.operator_eq b = true) := by
    rcases lt_trichotomy (sortKey bigEndian a) (sortKey bigEndian b) with h | h | h
    · refine Or.inl ⟨(operator_lt_iff_sortKey _ _ _).2 h, ?_, hneq a b ha hb (ne_of_lt h)⟩
      rw [← Bool.not_eq_true, operator_lt_iff_sortKey]
      exact not_lt_of_lt h
    · have hab : a = b := eq_of_sortKey_eq bigEndian ha hb h
      subst hab
      exact Or.inr (Or.inr ⟨hirr, hirr, (operator_eq_iff ha ha).2 rfl⟩)
    · refine Or.inr (Or.inl ⟨?_, (operator_lt_iff_sortKey _ _ _).2 h,
        hneq a b ha hb (ne_of_gt h)⟩)
      rw [← Bool.not_eq_true, operator_lt_iff_sortKey]
      exact not_lt_of_lt h
  refine ⟨hirr, ?_, htri, ?_⟩
  · intro h1 h2
    rw [operator_lt_iff_sortKey] at h1 h2 ⊢
    exact lt_trans h1 h2
  · constructor
    · rintro ⟨h1, h2⟩
      rcases htri with h | h | h
      · rw [h.1] at h1
        exact absurd h1 (by decide)
      · rw [h.2.1] at h2
        exact absurd h2 (by decide)
      · exact h.2.2
    · intro h
      rcases htri with h3 | h3 | h3
      · rw [h3.2.2] at h
        exact absurd h (by decide)
      · rw [h3.2.2] at h
        exact absurd h (by decide)
      · exact ⟨h3.1, h3.2.1⟩

theorem operator_lt_strict_total_witness :
    (FeatureName.ctor false demoPark 1 20 200).WellFormed ∧
    (FeatureName.ctor false demoPark 1 10 50).WellFormed ∧
    ((FeatureName.ctor false demoPark 1 20 200).operator_lt false
        (FeatureName.ctor false demoPark 1 20 200) = false ∧
    ((FeatureName.ctor false demoPark 1 20 200).operator_lt false
        (FeatureName.ctor false demoPark 1 10 50) = true →
      (FeatureName.ctor false demoPark 1 10 50).operator_lt false
        (FeatureName.ctor false demoPark 2 0 0) = true →
      (FeatureName.ctor false demoPark 1 20 200).operator_lt false
        (FeatureName.ctor false demoPark 2 0 0) = true) ∧
    (((FeatureName.ctor false demoPark 1 20 200).operator_lt false
          (FeatureName.ctor false demoPark 1 10 50) = true ∧
        (FeatureName.ctor false demoPark 1 10 50).operator_lt false
          (FeatureName.ctor false demoPark 1 20 200) = false ∧
        (FeatureName.ctor false demoPark 1 20 200).operator_eq
          (FeatureName.ctor false demoPark 1 10 50) = false) ∨
      ((FeatureName.ctor false demoPark 1 20 200).operator_lt false
          (FeatureName.ctor false demoPark 1 10 50) = false ∧
        (FeatureName.ctor false demoPark 1 10 50).operator_lt false
          (FeatureName.ctor false demoPark 1 20 200) = true ∧
        (FeatureName.ctor false demoPark 1 20 200).operator_eq
          (FeatureName.ctor false demoPark 1 10 50) = false) ∨
      ((FeatureName.ctor false demoPark 1 20 200).operator_lt false
          (FeatureName.ctor false demoPark 1 10 50) = false ∧
        (FeatureName.ctor false demoPark 1 10 50).operator_lt false
          (FeatureName.ctor false demoPark 1 20 200) = false ∧
        (FeatureName.ctor false demoPark 1 20 200).operator_eq
          (FeatureName.ctor false demoPark 1 10 50) = true)) ∧
    (((FeatureName.ctor false demoPark 1 20 200).operator_lt false
          (FeatureName.ctor false demoPark 1 10 50) = false ∧
        (FeatureName.ctor false demoPark 1 10 50).operator_lt false
          (FeatureName.ctor false demoPark 1 20 200) = false) ↔
      (FeatureName.ctor false demoPark 1 20 200).operator_eq
        (FeatureName.ctor false demoPark 1 10 50) = true)) ∧
    (FeatureName.ctor false demoPark 1 20 200).operator_lt false
      (FeatureName.ctor false demoPark 1 10 50) = true ∧
    (FeatureName.ctor false demoPark 1 10 50).operator_lt false
      (FeatureName.ctor false demoPark 2 0 0) = true :=
  ⟨by decide, by decide,
    operator_lt_strict_total false (FeatureName.ctor false demoPark 1 20 200)
      (FeatureName.ctor false demoPark 1 10 50) (FeatureName.ctor false demoPark 2 0 0)
      (by decide) (by decide), by decide, by decide⟩

/-- C15: applied to the value data and value size of an entry, `MaxValueCalc` passes
its assertion and returns the rank of the entry, whatever the four offset bytes. -/
theorem MaxValueCalc_rank (e : FeatureName) (hwf : e.WellFormed) :
    e.GetValueSize = 5 ∧
    MaxValueCalc.call e.GetValueData e.GetValueSize = some e.GetRank ∧
    ∀ v1 v2 v3 v4 : Nat,
      MaxValueCalc.call (e.m_Value.getD 0 0 :: [v1, v2, v3, v4]) 5 = some e.GetRank := by
  obtain ⟨v0, w1, w2, w3, w4, hv, h0, -⟩ := WellFormed_cases hwf
  have hr : e.GetRank = v0 := by
    simp only [FeatureName.GetRank, hv, List.getD_cons_zero]
    exact Nat.mod_eq_of_lt h0
  refine ⟨rfl, ?_, ?_⟩
  · simp only [MaxValueCalc.call, FeatureName.GetValueData, FeatureName.GetValueSize, hv,
      if_true, List.getD_cons_zero, hr]
  · intro v1 v2 v3 v4
    simp only [MaxValueCalc.call, hv, if_true, List.getD_cons_zero, hr]

theorem MaxValueCalc_rank_witness :
    (FeatureName.ctor true demoPark 1 305419896 200).WellFormed ∧
    ((FeatureName.ctor true demoPark 1 305419896 200).GetValueSize = 5 ∧
    MaxValueCalc.call (FeatureName.ctor true demoPark 1 305419896 200).GetValueData
        (FeatureName.ctor true demoPark 1 305419896 200).GetValueSize =
      some (FeatureName.ctor true demoPark 1 305419896 200).GetRank ∧
    ∀ v1 v2 v3 v4 : Nat,
      MaxValueCalc.call
          ((FeatureName.ctor true demoPark 1 305419896 200).m_Value.getD 0 0 ::
            [v1, v2, v3, v4]) 5 =
        some (FeatureName.ctor true demoPark 1 305419896 200).GetRank) ∧
    MaxValueCalc.call (FeatureName.ctor true demoPark 1 305419896 200).GetValueData 5 =
      some 200 :=
  ⟨by decide, MaxValueCalc_rank (FeatureName.ctor true demoPark 1 305419896 200) (by decide),
    by decide⟩

/-- C16: decoding undoes encoding: an entry built from a 32-bit `id` and an 8-bit
`rank` has `GetOffset() = id` and `GetRank() = rank`, on a little-endian and on a
big-endian host, also when the two hosts differ. -/
theorem ctor_decode (name : UniString) (lang : Int) (id rank : Nat) (hid : id < 2 ^ 32)
    (hrank : rank < 256) :
    (FeatureName.ctor false name lang id rank).GetOffset false = id ∧
    (FeatureName.ctor true name lang id rank).GetOffset true = id ∧
    (FeatureName.ctor false name lang id rank).GetRank = rank ∧
    (FeatureName.ctor true name lang id rank).GetRank = rank ∧
    ∀ writer reader : Bool,
      (FeatureName.ctor writer name lang id rank).GetOffset reader = id :=
  ⟨GetOffset_ctor false name lang id rank hid, GetOffset_ctor true name lang id rank hid,
    GetRank_ctor false name lang id rank hrank, GetRank_ctor true name lang id rank hrank,
    fun writer reader => GetOffset_ctor_any_host writer reader name lang id rank hid⟩

theorem ctor_decode_witness :
    (305419896 : Nat) < 2 ^ 32 ∧ (200 : Nat) < 256 ∧
    ((FeatureName.ctor false demoPark (-1) 305419896 200).GetOffset false = 305419896 ∧
    (FeatureName.ctor true demoPark (-1) 305419896 200).GetOffset true = 305419896 ∧
    (FeatureName.ctor false demoPark (-1) 305419896 200).GetRank = 200 ∧
    (FeatureName.ctor true demoPark (-1) 305419896 200).GetRank = 200 ∧
    ∀ writer reader : Bool,
      (FeatureName.ctor writer demoPark (-1) 305419896 200).GetOffset reader = 305419896) :=
  ⟨by decide, by decide, ctor_decode demoPark (-1) 305419896 200 (by decide) (by decide)⟩

/-! ## The sequence handed to `trie::Build` -/

theorem FeatureInserter_call_WellFormed (bigEndian : Bool) (ext : Externals)
    (m_names : List FeatureName) (feature : FeatureType) (pos : Nat)
    (h : ∀ e ∈ m_names, e.WellFormed) :
    ∀ e ∈ FeatureInserter.call bigEndian ext m_names feature pos, e.WellFormed := by
  intro e he
  unfold FeatureInserter.call FeatureNameInserter.AddTokenOwnRank at he
  simp only [ForEachNameRef_call, foldl_AddToken, List.mem_append, List.mem_flatMap,
    List.mem_map] at he
  rcases he with (h1 | ⟨ln, -, t, -, rfl⟩) | ⟨t, -, rfl⟩
  · exact h e h1
  · exact ctor_WellFormed _ _ _ _ _ (by omega)
  · exact ctor_WellFormed _ _ _ _ _ (by omega)

theorem foldl_call_WellFormed (bigEndian : Bool) (ext : Externals)
    (featuresVector : List (FeatureType × Nat)) (init : List FeatureName)
    (h : ∀ e ∈ init, e.WellFormed) :
    ∀ e ∈ featuresVector.foldl
      (fun names fp => FeatureInserter.call bigEndian ext names fp.1 fp.2) init,
      e.WellFormed := by
  induction featuresVector generalizing init with
  | nil => simpa using h
  | cons fp rest ih =>
    rw [List.foldl_cons]
    exact ih _ (FeatureInserter_call_WellFormed bigEndian ext init fp.1 fp.2 h)

theorem collect_WellFormed (bigEndian : Bool) (ext : Externals)
    (featuresVector : List (FeatureType × Nat)) :
    ∀ e ∈ collect bigEndian ext featuresVector, e.WellFormed :=
  foldl_call_WellFormed bigEndian ext featuresVector [] (by simp)

theorem pairwise_operator_lt (bigEndian : Bool) (names : List FeatureName)
    (hwf : ∀ e ∈ names, e.WellFormed) :
    (sortAndDedup bigEndian names).Pairwise
      (fun x y => x.operator_lt bigEndian y = true) :=
  List.Pairwise.imp (fun {a b} hab => (operator_lt_iff_sortKey bigEndian a b).2 hab)
    (pairwise_sortAndDedup bigEndian names hwf)

/-- C17: the output of the sort-and-dedup stage is strictly increasing for
`operator<`: of two adjacent entries the first is smaller than the second, and
they are not `operator==`. -/
theorem sortAndDedup_strictly_increasing (bigEndian : Bool) (names : List FeatureName)
    (hwf : ∀ e ∈ names, e.WellFormed) :
    (sortAndDedup bigEndian names).Chain' (fun x y => x.operator_lt bigEndian y = true) ∧
    ∀ (i : Nat) (x y : FeatureName), (sortAndDedup bigEndian names)[i]? = some x →
      (sortAndDedup bigEndian names)[i + 1]? = some y →
      x.operator_lt bigEndian y = true ∧ x.operator_eq y = false := by
  have hp := pairwise_operator_lt bigEndian names hwf
  refine ⟨hp.chain', ?_⟩
  intro i x y hx hy
  obtain ⟨hi, hxi⟩ := List.getElem?_eq_some.1 hx
  obtain ⟨hj, hyj⟩ := List.getElem?_eq_some.1 hy
  have hlt : x.operator_lt bigEndian y = true := by
    rw [← hxi, ← hyj]
    exact List.pairwise_iff_getElem.1 hp i (i + 1) hi hj (Nat.lt_succ_self i)
  refine ⟨hlt, ?_⟩
  have hxm : x ∈ sortAndDedup bigEndian names := List.mem_iff_getElem.2 ⟨i, hi, hxi⟩
  have hym : y ∈ sortAndDedup bigEndian names := List.mem_iff_getElem.2 ⟨i + 1, hj, hyj⟩
  have hxw := hwf x ((mem_sortAndDedup bigEndian names hwf x).1 hxm)
  have hyw := hwf y ((mem_sortAndDedup bigEndian names hwf y).1 hym)
  rw [← Bool.not_eq_true, operator_eq_iff hxw hyw]
  intro hxy
  rw [hxy, operator_lt_iff_sortKey] at hlt
  exact lt_irrefl _ hlt

theorem sortAndDedup_strictly_increasing_witness :
    (∀ e ∈ demoNames, e.WellFormed) ∧
    ((sortAndDedup false demoNames).Chain' (fun x y => x.operator_lt false y = true) ∧
    ∀ (i : Nat) (x y : FeatureName), (sortAndDedup false demoNames)[i]? = some x →
      (sortAndDedup false demoNames)[i + 1]? = some y →
      x.operator_lt false y = true ∧ x.operator_eq y = false) :=
  ⟨by decide, sortAndDedup_strictly_increasing false demoNames (by decide)⟩

/-- The sequence that `BuildSearchIndex` hands to `trie::Build` is strictly
increasing for `operator<`, whatever the features are. -/
theorem BuildSearchIndex_names_increasing (bigEndian : Bool) (ext : Externals)
    (featuresVector : List (FeatureType × Nat)) :
    (BuildSearchIndex_names bigEndian ext featuresVector).Chain'
      (fun x y => x.operator_lt bigEndian y = true) :=
  (pairwise_operator_lt bigEndian _ (collect_WellFormed bigEndian ext featuresVector)).chain'

theorem eq_of_perm_of_pairwise_le (bigEndian : Bool) (l1 l2 : List FeatureName)
    (h1 : ∀ e ∈ l1, e.WellFormed) (hp : l1.Perm l2)
    (hs1 : l1.Pairwise (fun a b => sortKey bigEndian a ≤ sortKey bigEndian b))
    (hs2 : l2.Pairwise (fun a b => sortKey bigEndian a ≤ sortKey bigEndian b)) :
    l1 = l2 := by
  have hm1 : (l1.map (sortKey bigEndian)).Sorted (· ≤ ·) := List.pairwise_map.2 hs1
  have hm2 : (l2.map (sortKey bigEndian)).Sorted (· ≤ ·) := List.pairwise_map.2 hs2
  exact eq_of_map_sortKey_eq bigEndian l1 l2 h1 (fun e he => h1 e (hp.mem_iff.2 he))
    (List.eq_of_perm_of_sorted (hp.map _) hm1 hm2)

theorem sortAndDedup_congr (bigEndian : Bool) (names1 names2 : List FeatureName)
    (h1 : ∀ e ∈ names1, e.WellFormed) (h2 : ∀ e ∈ names2, e.WellFormed)
    (hset : ∀ e, e ∈ names1 ↔ e ∈ names2) :
    sortAndDedup bigEndian names1 = sortAndDedup bigEndian names2 := by
  have hperm : (sortAndDedup bigEndian names1).Perm (sortAndDedup bigEndian names2) := by
    rw [List.perm_ext_iff_of_nodup (nodup_sortAndDedup bigEndian names1 h1)
      (nodup_sortAndDedup bigEndian names2 h2)]
    intro e
    rw [mem_sortAndDedup bigEndian names1 h1, mem_sortAndDedup bigEndian names2 h2]
    exact hset e
  exact eq_of_perm_of_pairwise_le bigEndian _ _
    (fun e he => h1 e ((mem_sortAndDedup bigEndian names1 h1 e).1 he)) hperm
    (List.Pairwise.imp (fun {a b} hab => le_of_lt hab)
      (pairwise_sortAndDedup bigEndian names1 h1))
    (List.Pairwise.imp (fun {a b} hab => le_of_lt hab)
      (pairwise_sortAndDedup bigEndian names2 h2))

/-- C18: the output of the sort-and-dedup stage depends only on the set of the
input entries: two inputs with the same entries, in any order and with any
multiplicities, give the same sequence. -/
theorem sortAndDedup_set_determined (bigEndian : Bool) (names1 names2 : List FeatureName)
    (h1 : ∀ e ∈ names1, e.WellFormed) (h2 : ∀ e ∈ names2, e.WellFormed)
    (hset : ∀ e, e ∈ names1 ↔ e ∈ names2) :
    sortAndDedup bigEndian names1 = sortAndDedup bigEndian names2 :=
  sortAndDedup_congr bigEndian names1 names2 h1 h2 hset

theorem sortAndDedup_set_determined_witness :
    (∀ e ∈ demoNames, e.WellFormed) ∧ (∀ e ∈ demoNamesShuffled, e.WellFormed) ∧
    (∀ e, e ∈ demoNames ↔ e ∈ demoNamesShuffled) ∧
    sortAndDedup false demoNames = sortAndDedup false demoNamesShuffled :=
  ⟨by decide, by decide,
    fun e => by simp only [demoNames, demoNamesShuffled, List.mem_cons, List.mem_singleton,
      List.not_mem_nil, or_false]; tauto,
    sortAndDedup_set_determined false demoNames demoNamesShuffled (by decide) (by decide)
      (fun e => by simp only [demoNames, demoNamesShuffled, List.mem_cons,
        List.mem_singleton, List.not_mem_nil, or_false]; tauto)⟩

/-- The sequence that `BuildSearchIndex` hands to `trie::Build` is the same for two
feature vectors whose collected entries are the same set. -/
theorem BuildSearchIndex_names_set_determined (bigEndian : Bool) (ext : Externals)
    (fv1 fv2 : List (FeatureType × Nat))
    (hset : ∀ e, e ∈ collect bigEndian ext fv1 ↔ e ∈ collect bigEndian ext fv2) :
    BuildSearchIndex_names bigEndian ext fv1 = BuildSearchIndex_names bigEndian ext fv2 :=
  sortAndDedup_congr bigEndian _ _ (collect_WellFormed bigEndian ext fv1)
    (collect_WellFormed bigEndian ext fv2) hset

end Indexer
